import Mathlib

/-!
Verification of the offline data sync engine (src/wasm/sync_engine.cpp).

The engine keeps two keyed stores of messages (local and remote), computes an
added/modified/deleted diff, encodes the difference between two content
strings as a "pos:del:ins" delta, applies such deltas, resolves conflicts by
timestamp, and reports statistics.

Modelling conventions:
- `std::string` is modelled as `String` / `List Char`; each character of the
  C++ byte string is modelled as one `Char`, and its byte value as
  `Char.toNat` (exact for the ASCII data the engine manipulates).
- `std::unordered_map<int, Message>` is modelled as an association list with
  unique keys (`Store`); `operator[] =` is insert-or-replace.
- machine integers are `Nat` / `Int`; the engine is compiled with Emscripten
  (ILP32), so `unsigned long` in the hash accumulates modulo 2^32.
- `std::stoi` either yields a value or throws; a throw is modelled as `none`.
  The out-of-range overflow throw of `stoi` (values beyond INT_MAX) is not
  modelled: every numeric field arising in this development is far below it.
-/

/-! ### Decimal digits, serialization, and the stoi model -/

/-- Character class of the decimal digits `'0'`..`'9'`. -/
def isDigitChar (c : Char) : Bool :=
  decide (48 ≤ c.toNat) && decide (c.toNat ≤ 57)

/-- Numeric value of a decimal digit character. -/
def digitVal (c : Char) : Nat := c.toNat - 48

/-- The decimal digit character for a digit value (`d ≥ 9` is clamped,
matching that it is only ever applied to `n % 10`). -/
def digitChar : Nat → Char
  | 0 => '0' | 1 => '1' | 2 => '2' | 3 => '3' | 4 => '4'
  | 5 => '5' | 6 => '6' | 7 => '7' | 8 => '8' | _ => '9'

/-- Fuel-driven core of decimal serialization: pushes the digits of `n`
(most significant first) in front of `acc`.  The fuel only needs to dominate
the number of digits; it makes the recursion structural so that the kernel
can evaluate it. -/
def toDecimalAux : Nat → Nat → List Char → List Char
  | 0, _, acc => acc
  | fuel + 1, n, acc =>
    if n = 0 then acc else toDecimalAux fuel (n / 10) (digitChar (n % 10) :: acc)

/-- Decimal serialization of a natural number, as produced by
`std::to_string` on a non-negative value. -/
def toDecimal (n : Nat) : List Char :=
  if n = 0 then ['0'] else toDecimalAux n n []

/-- Value of a string of decimal digits (most significant first). -/
def digitsToNat (l : List Char) : Nat :=
  l.foldl (fun a c => a * 10 + digitVal c) 0

/-- The whitespace class skipped by `std::stoi` (`isspace` in the C locale). -/
def isSpaceCpp (c : Char) : Bool :=
  c = ' ' || c = '\t' || c = '\n' || c = '\x0b' || c = '\x0c' || c = '\r'

/-- Model of `std::stoi`: skip leading whitespace, read an optional sign and
then a maximal non-empty run of decimal digits; `none` models the
`std::invalid_argument` exception thrown when no digits can be read. -/
def parseIntCpp (s : List Char) : Option Int :=
  match s.dropWhile isSpaceCpp with
  | [] => none
  | c :: rest =>
    if c = '-' then
      match rest.takeWhile isDigitChar with
      | [] => none
      | ds => some (-(digitsToNat ds : Int))
    else if c = '+' then
      match rest.takeWhile isDigitChar with
      | [] => none
      | ds => some ((digitsToNat ds : Int))
    else
      match (c :: rest).takeWhile isDigitChar with
      | [] => none
      | ds => some ((digitsToNat ds : Int))

theorem digitChar_isDigit (d : Nat) : isDigitChar (digitChar d) = true := by
  unfold digitChar
  split <;> decide

theorem digitVal_digitChar (d : Nat) (h : d < 10) : digitVal (digitChar d) = d := by
  interval_cases d <;> decide

theorem toDecimalAux_zero (fuel : Nat) (acc : List Char) :
    toDecimalAux fuel 0 acc = acc := by
  cases fuel <;> simp [toDecimalAux]

theorem toDecimalAux_acc (fuel : Nat) :
    ∀ n acc, toDecimalAux fuel n acc = toDecimalAux fuel n [] ++ acc := by
  induction fuel with
  | zero => intro n acc; simp [toDecimalAux]
  | succ fuel ih =>
    intro n acc
    by_cases hn : n = 0
    · simp [toDecimalAux, hn]
    · simp only [toDecimalAux, if_neg hn]
      rw [ih (n / 10) (digitChar (n % 10) :: acc), ih (n / 10) [digitChar (n % 10)]]
      simp

theorem digitsToNat_append_digit (l : List Char) (c : Char) :
    digitsToNat (l ++ [c]) = digitsToNat l * 10 + digitVal c := by
  simp [digitsToNat, List.foldl_append]

theorem digitsToNat_toDecimalAux (fuel : Nat) :
    ∀ n, 0 < n → n ≤ fuel → digitsToNat (toDecimalAux fuel n []) = n := by
  induction fuel with
  | zero => intro n h1 h2; omega
  | succ fuel ih =>
    intro n h1 h2
    have hn : n ≠ 0 := by omega
    simp only [toDecimalAux, if_neg hn]
    rw [toDecimalAux_acc fuel (n / 10) [digitChar (n % 10)]]
    rw [digitsToNat_append_digit, digitVal_digitChar (n % 10) (Nat.mod_lt n (by omega))]
    by_cases hq : n / 10 = 0
    · rw [hq, toDecimalAux_zero]
      have : n % 10 = n := Nat.mod_eq_of_lt (by omega)
      simp [digitsToNat, this]
    · have hqpos : 0 < n / 10 := Nat.pos_of_ne_zero hq
      have hlt : n / 10 < n := Nat.div_lt_self h1 (by omega)
      rw [ih (n / 10) hqpos (by omega)]
      omega

theorem toDecimalAux_digits (fuel : Nat) :
    ∀ n acc, (∀ c ∈ acc, isDigitChar c = true) →
      ∀ c ∈ toDecimalAux fuel n acc, isDigitChar c = true := by
  induction fuel with
  | zero => intro n acc hacc; simpa [toDecimalAux] using hacc
  | succ fuel ih =>
    intro n acc hacc
    by_cases hn : n = 0
    · simpa [toDecimalAux, hn] using hacc
    · simp only [toDecimalAux, if_neg hn]
      refine ih (n / 10) (digitChar (n % 10) :: acc) ?_
      intro c hc
      rcases List.mem_cons.mp hc with h | h
      · subst h; exact digitChar_isDigit (n % 10)
      · exact hacc c h

theorem toDecimal_digits (n : Nat) : ∀ c ∈ toDecimal n, isDigitChar c = true := by
  unfold toDecimal
  by_cases hn : n = 0
  · simp [hn]; decide
  · simp only [if_neg hn]
    exact toDecimalAux_digits n n [] (by simp)

theorem digitsToNat_toDecimal (n : Nat) : digitsToNat (toDecimal n) = n := by
  unfold toDecimal
  by_cases hn : n = 0
  · simp [hn]; decide
  · simp only [if_neg hn]
    exact digitsToNat_toDecimalAux n n (Nat.pos_of_ne_zero hn) (Nat.le_refl n)

theorem toDecimal_ne_nil (n : Nat) : toDecimal n ≠ [] := by
  intro h
  have := digitsToNat_toDecimal n
  rw [h] at this
  unfold toDecimal at h
  by_cases hn : n = 0
  · simp [hn] at h
  · exact hn (by simpa [digitsToNat] using this.symm)

theorem digit_not_space (c : Char) (h : isDigitChar c = true) : isSpaceCpp c = false := by
  have h48 : 48 ≤ c.toNat := by
    simp only [isDigitChar, Bool.and_eq_true, decide_eq_true_eq] at h
    exact h.1
  by_contra hs
  have hs' : isSpaceCpp c = true := by
    cases hiss : isSpaceCpp c
    · exact absurd hiss hs
    · rfl
  simp only [isSpaceCpp, Bool.or_eq_true, decide_eq_true_eq] at hs'
  rcases hs' with ((((rfl | rfl) | rfl) | rfl) | rfl) | rfl <;> simp_all

theorem digit_not_colon (c : Char) (h : isDigitChar c = true) : c ≠ ':' := by
  rintro rfl
  exact absurd h (by decide)

theorem digit_not_minus (c : Char) (h : isDigitChar c = true) : c ≠ '-' := by
  rintro rfl
  exact absurd h (by decide)

theorem digit_not_plus (c : Char) (h : isDigitChar c = true) : c ≠ '+' := by
  rintro rfl
  exact absurd h (by decide)

theorem takeWhile_all {p : Char → Bool} :
    ∀ l : List Char, (∀ c ∈ l, p c = true) → l.takeWhile p = l := by
  intro l hl
  induction l with
  | nil => rfl
  | cons c cs ih =>
    have h1 := hl c (List.mem_cons_self c cs)
    have h2 := ih (fun x hx => hl x (List.mem_cons_of_mem c hx))
    simp [List.takeWhile_cons, h1, h2]

theorem parseIntCpp_toDecimal (n : Nat) : parseIntCpp (toDecimal n) = some (n : Int) := by
  obtain ⟨c, cs, hcs⟩ : ∃ c cs, toDecimal n = c :: cs := by
    cases h : toDecimal n with
    | nil => exact absurd h (toDecimal_ne_nil n)
    | cons c cs => exact ⟨c, cs, rfl⟩
  have hdig : ∀ x ∈ c :: cs, isDigitChar x = true := by
    rw [← hcs]; exact toDecimal_digits n
  have hc : isDigitChar c = true := hdig c (List.mem_cons_self c cs)
  have hdrop : (c :: cs).dropWhile isSpaceCpp = c :: cs := by
    rw [List.dropWhile_cons, digit_not_space c hc]
    simp
  have htake : (c :: cs).takeWhile isDigitChar = c :: cs := takeWhile_all _ hdig
  have hval : digitsToNat (c :: cs) = n := by
    rw [← hcs]; exact digitsToNat_toDecimal n
  unfold parseIntCpp
  rw [hcs, hdrop]
  simp only [if_neg (digit_not_minus c hc), if_neg (digit_not_plus c hc), htake]
  rw [hval]

/-! ### String search: the model of std::string::find -/

/-- Index of the first occurrence of `ch` in `l`, or `none`
(`std::string::npos`). -/
def strFindFrom : List Char → Char → Option Nat
  | [], _ => none
  | c :: cs, ch => if c = ch then some 0 else (strFindFrom cs ch).map (· + 1)

/-- Model of `std::string::find(ch, start)`: first occurrence of `ch` at an
index `≥ start`, or `none` for `npos`. -/
def strFind (l : List Char) (ch : Char) (start : Nat) : Option Nat :=
  (strFindFrom (l.drop start) ch).map (· + start)

theorem strFindFrom_append (ch : Char) (r : List Char) :
    ∀ A : List Char, (∀ c ∈ A, c ≠ ch) →
      strFindFrom (A ++ ch :: r) ch = some A.length := by
  intro A
  induction A with
  | nil => intro _; simp [strFindFrom]
  | cons c cs ih =>
    intro h
    have hc : c ≠ ch := h c (List.mem_cons_self c cs)
    have ih2 := ih (fun x hx => h x (List.mem_cons_of_mem c hx))
    simp [strFindFrom, hc, ih2]

theorem strFindFrom_mem_take (ch : Char) :
    ∀ (l : List Char) (n : Nat), strFindFrom l ch = some n → ch ∈ l.take (n + 1) := by
  intro l
  induction l with
  | nil => intro n h; simp [strFindFrom] at h
  | cons c cs ih =>
    intro n h
    by_cases hc : c = ch
    · subst hc; simp [List.take_succ_cons]
    · simp only [strFindFrom, if_neg hc] at h
      cases hfs : strFindFrom cs ch with
      | none => rw [hfs] at h; simp at h
      | some m =>
        rw [hfs] at h
        simp at h
        subst h
        simpa [List.take_succ_cons] using Or.inr (ih m hfs)

/-! ### The delta codec -/

/-- Length of the longest common prefix of two character lists; this is the
value of `i` after the first scanning loop of `SyncEngine::generateDelta`. -/
def prefLen : List Char → List Char → Nat
  | a :: as, b :: bs => if a = b then prefLen as bs + 1 else 0
  | _, _ => 0

/-- Encoder core of `SyncEngine::generateDelta` (lines 143-173 of
sync_engine.cpp), acting on the two content strings.  `i` is the common
prefix length.  The backward scanning loop decrements `oldEnd` and `newEnd`
in lock step while both exceed `i` and the characters before them agree;
the number of its iterations equals the longest common prefix of the
reversed tails, which is how `k` is expressed here.  The delta is
`to_string(i) + ":" + to_string(oldEnd - i) + ":" + new.substr(i, newEnd - i)`. -/
def generateDeltaCore (oldC newC : List Char) : List Char :=
  let i := prefLen oldC newC
  let k := prefLen (oldC.drop i).reverse (newC.drop i).reverse
  let oldEnd := oldC.length - k
  let newEnd := newC.length - k
  toDecimal i ++ ':' :: (toDecimal (oldEnd - i) ++ ':' :: (newC.drop i).take (newEnd - i))

/-- Decoder `SyncEngine::applyDelta` (lines 179-198 of sync_engine.cpp).
`none` models an uncaught `std::stoi` exception.  Conversions of the `int`
values `pos` and `pos + delCount` to `size_t` in `substr` and in the bound
check wrap negative values to at least 2^31, which exceeds the length of any
string the wasm32 engine can hold, hence the `0 ≤ _` guards: a negative
index behaves like one beyond the end of the string. -/
def applyDeltaCore (content delta : List Char) : Option (List Char) :=
  match strFind delta ':' 0 with
  | none => some content
  | some c1 =>
    match strFind delta ':' (c1 + 1) with
    | none => some content
    | some c2 =>
      match parseIntCpp (delta.take c1),
            parseIntCpp ((delta.drop (c1 + 1)).take (c2 - c1 - 1)) with
      | some pos, some delCount =>
        let insertion := delta.drop (c2 + 1)
        let head := if pos < 0 then content else content.take pos.toNat
        some (if 0 ≤ pos + delCount ∧ (pos + delCount).toNat < content.length
              then (head ++ insertion) ++ content.drop (pos + delCount).toNat
              else head ++ insertion)
      | _, _ => none

theorem prefLen_le_left : ∀ a b : List Char, prefLen a b ≤ a.length := by
  intro a
  induction a with
  | nil => intro b; cases b <;> simp [prefLen]
  | cons x xs ih =>
    intro b
    cases b with
    | nil => simp [prefLen]
    | cons y ys =>
      by_cases hxy : x = y <;> simp [prefLen, hxy]
      exact ih ys

theorem prefLen_le_right : ∀ a b : List Char, prefLen a b ≤ b.length := by
  intro a
  induction a with
  | nil => intro b; cases b <;> simp [prefLen]
  | cons x xs ih =>
    intro b
    cases b with
    | nil => simp [prefLen]
    | cons y ys =>
      by_cases hxy : x = y <;> simp [prefLen, hxy]
      exact ih ys

theorem take_prefLen : ∀ a b : List Char, a.take (prefLen a b) = b.take (prefLen a b) := by
  intro a
  induction a with
  | nil => intro b; cases b <;> simp [prefLen]
  | cons x xs ih =>
    intro b
    cases b with
    | nil => simp [prefLen]
    | cons y ys =>
      by_cases hxy : x = y
      · subst hxy; simp [prefLen, List.take_succ_cons, ih ys]
      · simp [prefLen, hxy]

theorem drop_of_rev_take_eq {x y : List Char} {k : Nat}
    (h : x.reverse.take k = y.reverse.take k) :
    x.drop (x.length - k) = y.drop (y.length - k) := by
  rw [List.take_reverse, List.take_reverse] at h
  exact List.reverse_inj.mp h

/-- The common suffix discovered by the backward loop is literally the same
tail of both strings. -/
theorem suffix_drop_eq (a b : List Char) (i : Nat) (hia : i ≤ a.length) (hib : i ≤ b.length) :
    a.drop (a.length - prefLen (a.drop i).reverse (b.drop i).reverse)
      = b.drop (b.length - prefLen (a.drop i).reverse (b.drop i).reverse) := by
  set k := prefLen (a.drop i).reverse (b.drop i).reverse with hk
  have hka : k ≤ a.length - i := by
    have := prefLen_le_left (a.drop i).reverse (b.drop i).reverse
    simpa using this
  have hkb : k ≤ b.length - i := by
    have := prefLen_le_right (a.drop i).reverse (b.drop i).reverse
    simpa using this
  have htk : (a.drop i).reverse.take k = (b.drop i).reverse.take k := by
    rw [hk]; exact take_prefLen _ _
  have hdr := drop_of_rev_take_eq htk
  rw [List.drop_drop, List.drop_drop] at hdr
  have ha : i + ((a.drop i).length - k) = a.length - k := by
    rw [List.length_drop]; omega
  have hb : i + ((b.drop i).length - k) = b.length - k := by
    rw [List.length_drop]; omega
  rwa [ha, hb] at hdr

theorem toDecimal_not_colon (n : Nat) : ∀ c ∈ toDecimal n, c ≠ ':' :=
  fun c hc => digit_not_colon c (toDecimal_digits n c hc)

/-- Applying a well-formed serialized delta `"p:d:ins"`: the parser recovers
the three fields and splices exactly as the source does. -/
theorem applyDeltaCore_serialized (content ins : List Char) (p d : Nat) :
    applyDeltaCore content (toDecimal p ++ ':' :: (toDecimal d ++ ':' :: ins))
      = some (if p + d < content.length
              then (content.take p ++ ins) ++ content.drop (p + d)
              else content.take p ++ ins) := by
  have hsplit1 : toDecimal p ++ ':' :: (toDecimal d ++ ':' :: ins)
      = (toDecimal p ++ [':']) ++ (toDecimal d ++ ':' :: ins) := by simp
  have hsplit2 : toDecimal p ++ ':' :: (toDecimal d ++ ':' :: ins)
      = ((toDecimal p ++ [':']) ++ (toDecimal d ++ [':'])) ++ ins := by simp
  have h1 : strFind (toDecimal p ++ ':' :: (toDecimal d ++ ':' :: ins)) ':' 0
      = some (toDecimal p).length := by
    unfold strFind
    rw [List.drop_zero, strFindFrom_append ':' (toDecimal d ++ ':' :: ins) (toDecimal p)
      (toDecimal_not_colon p)]
    simp
  have hdrop1 : (toDecimal p ++ ':' :: (toDecimal d ++ ':' :: ins)).drop ((toDecimal p).length + 1)
      = toDecimal d ++ ':' :: ins := by
    rw [hsplit1]
    exact List.drop_left' (by simp)
  have h2 : strFind (toDecimal p ++ ':' :: (toDecimal d ++ ':' :: ins)) ':'
      ((toDecimal p).length + 1) = some ((toDecimal d).length + ((toDecimal p).length + 1)) := by
    unfold strFind
    rw [hdrop1, strFindFrom_append ':' ins (toDecimal d) (toDecimal_not_colon d)]
    simp
  have htake1 : (toDecimal p ++ ':' :: (toDecimal d ++ ':' :: ins)).take (toDecimal p).length
      = toDecimal p := by
    have : toDecimal p ++ ':' :: (toDecimal d ++ ':' :: ins)
        = toDecimal p ++ (':' :: (toDecimal d ++ ':' :: ins)) := rfl
    rw [this]
    exact List.take_left' rfl
  have hsub : (toDecimal d).length + ((toDecimal p).length + 1) - (toDecimal p).length - 1
      = (toDecimal d).length := by omega
  have htake2 : (((toDecimal p ++ ':' :: (toDecimal d ++ ':' :: ins)).drop
      ((toDecimal p).length + 1)).take (toDecimal d).length) = toDecimal d := by
    rw [hdrop1]
    exact List.take_left' rfl
  have hdrop2 : (toDecimal p ++ ':' :: (toDecimal d ++ ':' :: ins)).drop
      ((toDecimal d).length + ((toDecimal p).length + 1) + 1) = ins := by
    rw [hsplit2]
    refine List.drop_left' ?_
    simp
    omega
  have hpos0 : ¬ ((p : Int) < 0) := by omega
  have hd0 : (0 : Int) ≤ (p : Int) + (d : Int) := by omega
  have hcast : ((p : Int) + (d : Int)).toNat = p + d := by omega
  simp only [applyDeltaCore, h1, h2, hsub, htake1, htake2, hdrop2, parseIntCpp_toDecimal,
    if_neg hpos0, hcast, hd0, true_and, Int.toNat_natCast]

/-- Round-trip law at the level of character lists: applying the generated
delta to the old content reconstructs the new content. -/
theorem roundTripCore (a b : List Char) :
    applyDeltaCore a (generateDeltaCore a b) = some b := by
  have hia : prefLen a b ≤ a.length := prefLen_le_left a b
  have hib : prefLen a b ≤ b.length := prefLen_le_right a b
  have hka : prefLen (a.drop (prefLen a b)).reverse (b.drop (prefLen a b)).reverse
      ≤ a.length - prefLen a b := by
    have := prefLen_le_left (a.drop (prefLen a b)).reverse (b.drop (prefLen a b)).reverse
    simpa using this
  have hkb : prefLen (a.drop (prefLen a b)).reverse (b.drop (prefLen a b)).reverse
      ≤ b.length - prefLen a b := by
    have := prefLen_le_right (a.drop (prefLen a b)).reverse (b.drop (prefLen a b)).reverse
    simpa using this
  unfold generateDeltaCore
  rw [applyDeltaCore_serialized]
  set i := prefLen a b with hidef
  set k := prefLen (a.drop i).reverse (b.drop i).reverse with hkdef
  have hiadd : i + (a.length - k - i) = a.length - k := by omega
  have hibadd : i + (b.length - k - i) = b.length - k := by omega
  have htkeq : a.take i = b.take i := take_prefLen a b
  have hmid : b.take i ++ (b.drop i).take (b.length - k - i) = b.take (b.length - k) := by
    rw [← List.take_add, hibadd]
  by_cases hc : i + (a.length - k - i) < a.length
  · rw [if_pos hc, hiadd]
    rw [htkeq, hmid, suffix_drop_eq a b i hia hib]
    exact congrArg some (List.take_append_drop (b.length - k) b)
  · rw [if_neg hc]
    have hk0 : k = 0 := by omega
    rw [htkeq]
    rw [hk0]
    have : (b.drop i).take (b.length - 0 - i) = b.drop i := by
      refine List.take_of_length_le ?_
      rw [List.length_drop]
      omega
    rw [this]
    exact congrArg some (List.take_append_drop i b)

/-! ### The engine state: messages, stores, operations -/

/-- The `Message` record of `SyncEngine` (id, content, timestamp, hash).
`int` and `long long` are modelled as `Int`; the `hash` member is the string
produced by `hashMessage`. -/
structure Message where
  id : Int
  content : String
  timestamp : Int
  hash : String
deriving DecidableEq

/-- A message store (`std::unordered_map<int, Message>`), modelled as an
association list from key to record.  All stores built by the engine have
unique keys; iteration order stands in for the map's unspecified order. -/
abbrev Store := List (Int × Message)

/-- Model of `map.find(id)`: the record stored under `id`, if any. -/
def Store.find? : Store → Int → Option Message
  | [], _ => none
  | (k, v) :: t, id => if k = id then some v else Store.find? t id

/-- Model of `map[id] = msg`: replace the record under `id` if present,
otherwise add it. -/
def Store.insert : Store → Int → Message → Store
  | [], id, m => [(id, m)]
  | (k, v) :: t, id, m => if k = id then (id, m) :: t else (k, v) :: Store.insert t id m

/-- `SyncEngine::hashMessage` (lines 35-41): the djb2-style rolling hash
`hash = hash * 33 + c` starting from 5381, rendered in decimal.  The
accumulator is an `unsigned long`, which is 32 bits wide under Emscripten's
ILP32 ABI, hence the reduction modulo 2^32 at every step. -/
def hashMessage (content : String) : String :=
  toString (content.data.foldl (fun h c => ((h <<< 5) + h + c.toNat) % 4294967296) 5381)

/-- The private state of a `SyncEngine` instance: its two stores. -/
structure EngineState where
  localMessages : Store
  remoteMessages : Store
deriving DecidableEq

/-- `SyncEngine::addLocalMessage` (lines 71-78). -/
def addLocalMessage (s : EngineState) (id : Int) (content : String) (timestamp : Int) :
    EngineState :=
  { s with localMessages :=
      s.localMessages.insert id ⟨id, content, timestamp, hashMessage content⟩ }

/-- `SyncEngine::addRemoteMessage` (lines 83-90). -/
def addRemoteMessage (s : EngineState) (id : Int) (content : String) (timestamp : Int) :
    EngineState :=
  { s with remoteMessages :=
      s.remoteMessages.insert id ⟨id, content, timestamp, hashMessage content⟩ }

/-- `SyncEngine::clear`: empty both stores. -/
def clearEngine (_ : EngineState) : EngineState := ⟨[], []⟩

/-- The engine state after construction: both stores empty. -/
def initState : EngineState := ⟨[], []⟩

/-- One mutating call of the public API. -/
inductive SyncOp where
  | addLocal (id : Int) (content : String) (timestamp : Int)
  | addRemote (id : Int) (content : String) (timestamp : Int)
  | clearOp
deriving DecidableEq

/-- Execute one mutating call against a state. -/
def applyOp (s : EngineState) : SyncOp → EngineState
  | .addLocal id c t => addLocalMessage s id c t
  | .addRemote id c t => addRemoteMessage s id c t
  | .clearOp => clearEngine s

/-- Execute a sequence of mutating calls, oldest first. -/
def applyOps (s : EngineState) (ops : List SyncOp) : EngineState :=
  ops.foldl applyOp s

/-- The triple of id lists returned by `SyncEngine::calculateDiff`. -/
structure DiffResult where
  added : List Int
  modified : List Int
  deleted : List Int
deriving DecidableEq

/-- The `modified` condition of the remote-store walk in
`SyncEngine::calculateDiff`: a local record exists and its hash differs. -/
def diffModPred (loc : Store) (p : Int × Message) : Bool :=
  match Store.find? loc p.1 with
  | some lm => lm.hash != p.2.hash
  | none => false

/-- The conflict condition of the local-store walk in
`SyncEngine::getStats`: a remote record exists and its hash differs. -/
def statConflictPred (rem : Store) (p : Int × Message) : Bool :=
  match Store.find? rem p.1 with
  | some rm => p.2.hash != rm.hash
  | none => false

/-- `SyncEngine::calculateDiff` (lines 96-130).  The source walks
`remoteMessages` once, pushing each id into `added` (no local record) or
`modified` (local record with a different hash), then walks `localMessages`
pushing ids absent from the remote store into `deleted`; the three filtered
traversals below produce the same three lists. -/
def calculateDiff (s : EngineState) : DiffResult :=
  { added := (s.remoteMessages.filter
      (fun p => (Store.find? s.localMessages p.1).isNone)).map Prod.fst
  , modified := (s.remoteMessages.filter (diffModPred s.localMessages)).map Prod.fst
  , deleted := (s.localMessages.filter
      (fun p => (Store.find? s.remoteMessages p.1).isNone)).map Prod.fst }

/-- The delta encoder at string level: the body of
`SyncEngine::generateDelta` past the store lookups, taking the old (local)
and new (remote) content. -/
def encodeDelta (old new : String) : String :=
  String.mk (generateDeltaCore old.data new.data)

/-- `SyncEngine::generateDelta` (lines 135-174): empty string unless the id
is in both stores, else the serialized delta from the local content (old) to
the remote content (new). -/
def generateDelta (s : EngineState) (id : Int) : String :=
  match Store.find? s.localMessages id, Store.find? s.remoteMessages id with
  | some lm, some rm => encodeDelta lm.content rm.content
  | _, _ => ""

/-- String-level wrapper of `SyncEngine::applyDelta`; `none` models an
uncaught exception escaping the method. -/
def applyDelta (content delta : String) : Option String :=
  (applyDeltaCore content.data delta.data).map String.mk

/-- Result object of `SyncEngine::resolveConflict`: either just
`resolved: false`, or `resolved: true` with the `useRemote` flag and the
winning content. -/
inductive ResolveResult where
  | unresolved
  | winner (useRemote : Bool) (content : String)
deriving DecidableEq

/-- The `resolved` field of the result object. -/
def ResolveResult.flag : ResolveResult → Bool
  | .unresolved => false
  | .winner _ _ => true

/-- `SyncEngine::resolveConflict` (lines 203-223).  The guard in the source
reads `localIt == localMessages.end() || remoteIt == localMessages.end()`;
iterator equality of libstdc++ hashtables compares the current node pointer
and every `end()` iterator carries the null node, so the second disjunct
holds exactly when `remoteIt` is `remoteMessages.end()`, i.e. when the id is
absent from the remote store — which is how it is modelled here.  Past the
guard, remote wins strictly on the greater timestamp. -/
def resolveConflict (s : EngineState) (id : Int) : ResolveResult :=
  match Store.find? s.localMessages id, Store.find? s.remoteMessages id with
  | some lm, some rm =>
    ResolveResult.winner (decide (rm.timestamp > lm.timestamp))
      (if rm.timestamp > lm.timestamp then rm.content else lm.content)
  | _, _ => ResolveResult.unresolved

/-- The counters returned by `SyncEngine::getStats`. -/
structure Stats where
  localCount : Nat
  remoteCount : Nat
  conflicts : Nat
deriving DecidableEq

/-- `SyncEngine::getStats` (lines 228-245): store sizes plus the number of
local records whose id also exists remotely with a different hash. -/
def getStats (s : EngineState) : Stats :=
  { localCount := s.localMessages.length
  , remoteCount := s.remoteMessages.length
  , conflicts := (s.localMessages.filter (statConflictPred s.remoteMessages)).length }

/-- State-transformer view of the four read-only methods: the source bodies
of `calculateDiff`, `generateDelta`, `applyDelta` and `getStats` perform
only `find`/iteration on the two stores and never assign to them, so their
embedding threads the state through unchanged. -/
def calculateDiffM (s : EngineState) : DiffResult × EngineState :=
  (calculateDiff s, s)

/-- State-transformer view of `generateDelta`; see `calculateDiffM`. -/
def generateDeltaM (id : Int) (s : EngineState) : String × EngineState :=
  (generateDelta s id, s)

/-- State-transformer view of `applyDelta`; see `calculateDiffM`. -/
def applyDeltaM (content delta : String) (s : EngineState) :
    Option String × EngineState :=
  (applyDelta content delta, s)

/-- State-transformer view of `getStats`; see `calculateDiffM`. -/
def getStatsM (s : EngineState) : Stats × EngineState :=
  (getStats s, s)

/-- Well-formedness of a store: keys are unique, as in any C++ map. -/
abbrev WFStore (s : Store) : Prop := (s.map Prod.fst).Nodup

/-! ### Store lemmas -/

theorem Store.mem_of_find? {s : Store} {id : Int} {m : Message}
    (h : Store.find? s id = some m) : (id, m) ∈ s := by
  induction s with
  | nil => simp [Store.find?] at h
  | cons p t ih =>
    obtain ⟨k, v⟩ := p
    simp only [Store.find?] at h
    by_cases hk : k = id
    · rw [if_pos hk] at h
      obtain rfl : v = m := Option.some.inj h
      subst hk
      exact List.mem_cons_self _ _
    · rw [if_neg hk] at h
      exact List.mem_cons_of_mem _ (ih h)

theorem Store.find?_of_mem {s : Store} (hWF : WFStore s) {id : Int} {m : Message}
    (h : (id, m) ∈ s) : Store.find? s id = some m := by
  induction s with
  | nil => simp at h
  | cons p t ih =>
    obtain ⟨k, v⟩ := p
    have hWF2 : k ∉ t.map Prod.fst ∧ WFStore t := by
      simp only [WFStore, List.map_cons, List.nodup_cons] at hWF
      exact hWF
    rcases List.mem_cons.mp h with h1 | h1
    · injection h1 with hk hv
      subst hk
      subst hv
      simp [Store.find?]
    · have hk : k ≠ id := by
        intro hkid
        apply hWF2.1
        rw [hkid]
        exact (List.mem_map_of_mem Prod.fst h1 : id ∈ t.map Prod.fst)
      simp only [Store.find?, if_neg hk]
      exact ih hWF2.2 h1

theorem Store.find?_isNone_iff {s : Store} {id : Int} :
    Store.find? s id = none ↔ id ∉ s.map Prod.fst := by
  induction s with
  | nil => simp [Store.find?]
  | cons p t ih =>
    obtain ⟨k, v⟩ := p
    by_cases hk : k = id
    · subst hk
      simp [Store.find?]
    · simp [Store.find?, hk, ih, Ne.symm hk]

theorem Store.find?_isSome_iff {s : Store} {id : Int} :
    (Store.find? s id).isSome = true ↔ id ∈ s.map Prod.fst := by
  rw [← Decidable.not_iff_not, Option.not_isSome_iff_eq_none, Store.find?_isNone_iff]

theorem Store.mem_insert {s : Store} {id : Int} {m : Message} {p : Int × Message}
    (h : p ∈ Store.insert s id m) : p = (id, m) ∨ p ∈ s := by
  induction s with
  | nil => simp [Store.insert] at h; exact Or.inl h
  | cons q t ih =>
    obtain ⟨k, v⟩ := q
    by_cases hk : k = id
    · simp only [Store.insert, if_pos hk] at h
      rcases List.mem_cons.mp h with h1 | h1
      · exact Or.inl h1
      · exact Or.inr (List.mem_cons_of_mem _ h1)
    · simp only [Store.insert, if_neg hk] at h
      rcases List.mem_cons.mp h with h1 | h1
      · exact Or.inr (h1 ▸ List.mem_cons_self _ _)
      · rcases ih h1 with h2 | h2
        · exact Or.inl h2
        · exact Or.inr (List.mem_cons_of_mem _ h2)

/-- Membership of an id in one of the filtered projections used by
`calculateDiff` and `getStats`, characterized through `find?`. -/
theorem mem_map_filter_iff {l : Store} (hWF : WFStore l)
    (pred : Int × Message → Bool) (id : Int) :
    id ∈ (l.filter pred).map Prod.fst ↔
      ∃ m, Store.find? l id = some m ∧ pred (id, m) = true := by
  constructor
  · intro h
    obtain ⟨p, hp, hfst⟩ := List.mem_map.mp h
    obtain ⟨hmem, hpred⟩ := List.mem_filter.mp hp
    obtain ⟨pk, pm⟩ := p
    obtain rfl : pk = id := hfst
    exact ⟨pm, Store.find?_of_mem hWF hmem, hpred⟩
  · rintro ⟨m, hfind, hpred⟩
    exact List.mem_map.mpr ⟨(id, m), List.mem_filter.mpr ⟨Store.mem_of_find? hfind, hpred⟩, rfl⟩

/-! ### Helper lemmas for the malformed-delta and invariant claims -/

/-- If both colon searches of `applyDelta` succeed, the delta holds at least
two colons. -/
theorem two_colons_of_strFind {delta : List Char} {c1 c2 : Nat}
    (h1 : strFind delta ':' 0 = some c1) (h2 : strFind delta ':' (c1 + 1) = some c2) :
    2 ≤ delta.count ':' := by
  unfold strFind at h1 h2
  rw [List.drop_zero] at h1
  obtain ⟨m1, hm1, hce1⟩ : ∃ m, strFindFrom delta ':' = some m ∧ m + 0 = c1 := by
    cases hf : strFindFrom delta ':' with
    | none => rw [hf] at h1; simp at h1
    | some m => rw [hf] at h1; exact ⟨m, rfl, by simpa using h1⟩
  obtain ⟨m2, hm2, hce2⟩ : ∃ m, strFindFrom (delta.drop (c1 + 1)) ':' = some m ∧
      m + (c1 + 1) = c2 := by
    cases hf : strFindFrom (delta.drop (c1 + 1)) ':' with
    | none => rw [hf] at h2; simp at h2
    | some m => rw [hf] at h2; exact ⟨m, rfl, by simpa using h2⟩
  have hmem1 : ':' ∈ delta.take (c1 + 1) := by
    have := strFindFrom_mem_take ':' delta m1 hm1
    rwa [show m1 = c1 from by omega] at this
  have hmem2 : ':' ∈ delta.drop (c1 + 1) :=
    List.mem_of_mem_take (strFindFrom_mem_take ':' (delta.drop (c1 + 1)) m2 hm2)
  have hcount : delta.count ':' =
      (delta.take (c1 + 1)).count ':' + (delta.drop (c1 + 1)).count ':' := by
    conv_lhs => rw [← List.take_append_drop (c1 + 1) delta]
    rw [List.count_append]
  have hp1 : 0 < (delta.take (c1 + 1)).count ':' := List.count_pos_iff.mpr hmem1
  have hp2 : 0 < (delta.drop (c1 + 1)).count ':' := List.count_pos_iff.mpr hmem2
  omega

/-- The fingerprint invariant: every record of either store carries the hash
of its own content. -/
def HashInv (s : EngineState) : Prop :=
  (∀ p ∈ s.localMessages, (Prod.snd p).hash = hashMessage (Prod.snd p).content) ∧
  (∀ p ∈ s.remoteMessages, (Prod.snd p).hash = hashMessage (Prod.snd p).content)

theorem hashInv_insert {st : Store} {id : Int} {c : String} {ts : Int}
    (h : ∀ p ∈ st, (Prod.snd p).hash = hashMessage (Prod.snd p).content) :
    ∀ p ∈ Store.insert st id ⟨id, c, ts, hashMessage c⟩,
      (Prod.snd p).hash = hashMessage (Prod.snd p).content := by
  intro p hp
  rcases Store.mem_insert hp with h1 | h1
  · subst h1; rfl
  · exact h p h1

theorem hashInv_applyOp {s : EngineState} (h : HashInv s) (op : SyncOp) :
    HashInv (applyOp s op) := by
  cases op with
  | addLocal id c t => exact ⟨hashInv_insert h.1, h.2⟩
  | addRemote id c t => exact ⟨h.1, hashInv_insert h.2⟩
  | clearOp => exact ⟨by simp [applyOp, clearEngine], by simp [applyOp, clearEngine]⟩

theorem hashInv_applyOps : ∀ (ops : List SyncOp) (s : EngineState),
    HashInv s → HashInv (applyOps s ops) := by
  intro ops
  induction ops with
  | nil => intro s h; exact h
  | cons op t ih =>
    intro s h
    rw [applyOps, List.foldl_cons]
    exact ih (applyOp s op) (hashInv_applyOp h op)

/-! ### Claim theorems -/

/-- C1.  Round-trip law of the delta codec: for every pair of strings
`old` and `new` — including empty `old`, empty `new`, identical strings and
full replacement — applying the delta generated from `(old, new)` to `old`
yields exactly `new`. -/
theorem delta_round_trip (old new : String) :
    applyDelta old (encodeDelta old new) = some new := by
  unfold applyDelta encodeDelta
  rw [show (String.mk (generateDeltaCore old.data new.data)).data
      = generateDeltaCore old.data new.data from rfl]
  rw [roundTripCore]
  rfl

/-- C8.  `generateDelta` returns the empty string whenever the id is absent
from the local store or from the remote store. -/
theorem generateDelta_missing_empty (s : EngineState) (id : Int)
    (h : Store.find? s.localMessages id = none ∨ Store.find? s.remoteMessages id = none) :
    generateDelta s id = "" := by
  unfold generateDelta
  rcases h with h | h
  · simp only [h]
  · cases hl : Store.find? s.localMessages id <;> simp only [hl, h]

/-- Witness for C8 at a concrete input: the empty engine has no id `1`. -/
theorem generateDelta_missing_empty_witness :
    (Store.find? initState.localMessages 1 = none ∨
      Store.find? initState.remoteMessages 1 = none) ∧
    generateDelta initState 1 = "" :=
  ⟨Or.inl rfl, generateDelta_missing_empty initState 1 (Or.inl rfl)⟩

/-- C3.  `resolveConflict` reports `resolved = false` whenever the id is
absent from the local store or from the remote store; equivalently, its
`resolved` flag is true only when the id is present in both stores. -/
theorem resolveConflict_requires_both (s : EngineState) (id : Int)
    (h : Store.find? s.localMessages id = none ∨ Store.find? s.remoteMessages id = none) :
    (resolveConflict s id).flag = false := by
  unfold resolveConflict
  rcases h with h | h
  · simp only [h, ResolveResult.flag]
  · cases hl : Store.find? s.localMessages id <;> simp only [hl, h, ResolveResult.flag]

/-- Witness for C3 at a concrete input: the empty engine resolves nothing. -/
theorem resolveConflict_requires_both_witness :
    (Store.find? initState.localMessages 1 = none ∨
      Store.find? initState.remoteMessages 1 = none) ∧
    (resolveConflict initState 1).flag = false :=
  ⟨Or.inl rfl, resolveConflict_requires_both initState 1 (Or.inl rfl)⟩

/-- C6.  When the id is present in both stores, `resolveConflict`
resolves: it returns a winner object whose `useRemote` flag is true exactly
when the remote timestamp is strictly greater than the local one (so equal
timestamps select local), and whose winner is the content of the selected
side. -/
theorem resolveConflict_both_present (s : EngineState) (id : Int) (lm rm : Message)
    (hl : Store.find? s.localMessages id = some lm)
    (hr : Store.find? s.remoteMessages id = some rm) :
    (resolveConflict s id).flag = true ∧
    ∃ u w, resolveConflict s id = ResolveResult.winner u w ∧
      (u = true ↔ lm.timestamp < rm.timestamp) ∧
      (lm.timestamp < rm.timestamp → w = rm.content) ∧
      (¬ lm.timestamp < rm.timestamp → w = lm.content) := by
  unfold resolveConflict
  rw [hl, hr]
  refine ⟨rfl, decide (rm.timestamp > lm.timestamp), _, rfl, ?_, ?_, ?_⟩
  · simp [GT.gt]
  · intro h; rw [if_pos h]
  · intro h; rw [if_neg h]

/-- Witness for C6: local timestamp 100, remote timestamp 200 on id 1 make
the remote side win with its content. -/
theorem resolveConflict_both_present_witness :
    Store.find? (applyOps initState
        [SyncOp.addLocal 1 "hello" 100, SyncOp.addRemote 1 "hallo" 200]).localMessages 1
      = some ⟨1, "hello", 100, hashMessage "hello"⟩ ∧
    ((resolveConflict (applyOps initState
        [SyncOp.addLocal 1 "hello" 100, SyncOp.addRemote 1 "hallo" 200]) 1).flag = true ∧
      ∃ u w, resolveConflict (applyOps initState
          [SyncOp.addLocal 1 "hello" 100, SyncOp.addRemote 1 "hallo" 200]) 1
        = ResolveResult.winner u w ∧
        (u = true ↔ (100 : Int) < 200) ∧
        ((100 : Int) < 200 → w = "hallo") ∧
        (¬ (100 : Int) < 200 → w = "hello")) :=
  ⟨rfl, resolveConflict_both_present _ 1 ⟨1, "hello", 100, hashMessage "hello"⟩
    ⟨1, "hallo", 200, hashMessage "hallo"⟩ rfl rfl⟩

/-- C9.  Worked delta scenario: with local content `"hello"` and remote
content `"hallo"` under id 1, `generateDelta 1` serializes prefix length 1,
delete count 1 and inserted text `"a"` as `"1:1:a"`, and applying that delta
to `"hello"` yields `"hallo"`. -/
theorem worked_delta_scenario :
    generateDelta (applyOps initState
        [SyncOp.addLocal 1 "hello" 100, SyncOp.addRemote 1 "hallo" 200]) 1 = "1:1:a" ∧
    applyDelta "hello" "1:1:a" = some "hallo" := by
  constructor
  · rfl
  · rfl

/-- C10.  The four query methods are read-only: embedded as state
transformers, each returns its state argument unchanged, for every state and
every argument. -/
theorem queries_leave_state_unchanged (s : EngineState) (id : Int)
    (content delta : String) :
    (calculateDiffM s).2 = s ∧ (generateDeltaM id s).2 = s ∧
    (applyDeltaM content delta s).2 = s ∧ (getStatsM s).2 = s :=
  ⟨rfl, rfl, rfl, rfl⟩

/-- C2 counterexample.  A delta whose two delimiter-separated fields are not
numeric is not returned unchanged: both colons are present, so the guard is
passed, and `std::stoi("a")` throws (`none` in the model) instead of
yielding the original content. -/
theorem applyDelta_nonnumeric_raises :
    applyDelta "hello" "a:b:c" = none ∧ applyDelta "hello" "a:b:c" ≠ some "hello" := by
  constructor
  · rfl
  · intro h
    rw [show applyDelta "hello" "a:b:c" = none from rfl] at h
    exact Option.noConfusion h

/-- C2 amended.  For every delta with fewer than two colons — the only way
the two required fields can be missing their delimiters — `applyDelta`
returns the content unchanged and never raises. -/
theorem applyDelta_missing_delimiter_noop (content delta : String)
    (h : delta.data.count ':' < 2) :
    applyDelta content delta = some content := by
  unfold applyDelta applyDeltaCore
  split
  · rfl
  · rename_i c1 heq1
    split
    · rfl
    · rename_i c2 heq2
      exact absurd (two_colons_of_strFind heq1 heq2) (by omega)

/-- Witness for the amended C2 at the spec's own example: `"not-a-delta"`
has no colon at all and is a no-op on `"abc"`. -/
theorem applyDelta_missing_delimiter_noop_witness :
    ("not-a-delta" : String).data.count ':' < 2 ∧
    applyDelta "abc" "not-a-delta" = some "abc" :=
  ⟨by decide, applyDelta_missing_delimiter_noop "abc" "not-a-delta" (by decide)⟩

/-- C7.  Fingerprint invariant: after any sequence of
`addLocalMessage` / `addRemoteMessage` / `clear` calls starting from a fresh
engine, every record in either store carries exactly the hash of its own
content — the hash is recomputed on every insert or replace. -/
theorem hash_recomputed_invariant (ops : List SyncOp) (id : Int) (m : Message)
    (h : (id, m) ∈ (applyOps initState ops).localMessages ∨
         (id, m) ∈ (applyOps initState ops).remoteMessages) :
    m.hash = hashMessage m.content := by
  have hinv : HashInv (applyOps initState ops) :=
    hashInv_applyOps ops initState ⟨by simp [initState], by simp [initState]⟩
  rcases h with h | h
  · exact hinv.1 (id, m) h
  · exact hinv.2 (id, m) h

/-- Witness for C7: after one local insert the stored record hashes its own
content. -/
theorem hash_recomputed_invariant_witness :
    (((1 : Int), Message.mk 1 "hi" 5 (hashMessage "hi")) ∈
        (applyOps initState [SyncOp.addLocal 1 "hi" 5]).localMessages ∨
      ((1 : Int), Message.mk 1 "hi" 5 (hashMessage "hi")) ∈
        (applyOps initState [SyncOp.addLocal 1 "hi" 5]).remoteMessages) ∧
    (Message.mk 1 "hi" 5 (hashMessage "hi")).hash
      = hashMessage (Message.mk 1 "hi" 5 (hashMessage "hi")).content :=
  ⟨Or.inl (by simp [applyOps, applyOp, addLocalMessage, initState, Store.insert]),
   hash_recomputed_invariant [SyncOp.addLocal 1 "hi" 5] 1 _
     (Or.inl (by simp [applyOps, applyOp, addLocalMessage, initState, Store.insert]))⟩

/-! ### Diff and stats characterizations (C4, C5) -/

theorem diffModPred_iff (loc : Store) (id : Int) (m : Message) :
    diffModPred loc (id, m) = true ↔
      ∃ lm, Store.find? loc id = some lm ∧ lm.hash ≠ m.hash := by
  cases hf : Store.find? loc id with
  | none => simp [diffModPred, hf]
  | some lm => simp [diffModPred, hf, bne_iff_ne]

theorem statConflictPred_iff (rem : Store) (id : Int) (m : Message) :
    statConflictPred rem (id, m) = true ↔
      ∃ rm, Store.find? rem id = some rm ∧ m.hash ≠ rm.hash := by
  cases hf : Store.find? rem id with
  | none => simp [statConflictPred, hf]
  | some rm => simp [statConflictPred, hf, bne_iff_ne]

theorem mem_diff_added_iff (s : EngineState) (hr : WFStore s.remoteMessages) (id : Int) :
    id ∈ (calculateDiff s).added ↔
      (∃ rm, Store.find? s.remoteMessages id = some rm) ∧
        Store.find? s.localMessages id = none := by
  show id ∈ (s.remoteMessages.filter
      (fun p => (Store.find? s.localMessages p.1).isNone)).map Prod.fst ↔ _
  rw [mem_map_filter_iff hr]
  constructor
  · rintro ⟨rm, hrm, hpred⟩
    refine ⟨⟨rm, hrm⟩, ?_⟩
    simpa [Option.isNone_iff_eq_none] using hpred
  · rintro ⟨⟨rm, hrm⟩, hnone⟩
    exact ⟨rm, hrm, by simp [hnone]⟩

theorem mem_diff_modified_iff (s : EngineState) (hr : WFStore s.remoteMessages) (id : Int) :
    id ∈ (calculateDiff s).modified ↔
      ∃ lm rm, Store.find? s.localMessages id = some lm ∧
        Store.find? s.remoteMessages id = some rm ∧ lm.hash ≠ rm.hash := by
  show id ∈ (s.remoteMessages.filter (diffModPred s.localMessages)).map Prod.fst ↔ _
  rw [mem_map_filter_iff hr]
  constructor
  · rintro ⟨rm, hrm, hpred⟩
    obtain ⟨lm, hlm, hne⟩ := (diffModPred_iff _ _ _).mp hpred
    exact ⟨lm, rm, hlm, hrm, hne⟩
  · rintro ⟨lm, rm, hlm, hrm, hne⟩
    exact ⟨rm, hrm, (diffModPred_iff _ _ _).mpr ⟨lm, hlm, hne⟩⟩

theorem mem_diff_deleted_iff (s : EngineState) (hl : WFStore s.localMessages) (id : Int) :
    id ∈ (calculateDiff s).deleted ↔
      (∃ lm, Store.find? s.localMessages id = some lm) ∧
        Store.find? s.remoteMessages id = none := by
  show id ∈ (s.localMessages.filter
      (fun p => (Store.find? s.remoteMessages p.1).isNone)).map Prod.fst ↔ _
  rw [mem_map_filter_iff hl]
  constructor
  · rintro ⟨lm, hlm, hpred⟩
    refine ⟨⟨lm, hlm⟩, ?_⟩
    simpa [Option.isNone_iff_eq_none] using hpred
  · rintro ⟨⟨lm, hlm⟩, hnone⟩
    exact ⟨lm, hlm, by simp [hnone]⟩

theorem mem_statConflict_iff (s : EngineState) (hl : WFStore s.localMessages) (id : Int) :
    id ∈ (s.localMessages.filter (statConflictPred s.remoteMessages)).map Prod.fst ↔
      ∃ lm rm, Store.find? s.localMessages id = some lm ∧
        Store.find? s.remoteMessages id = some rm ∧ lm.hash ≠ rm.hash := by
  rw [mem_map_filter_iff hl]
  constructor
  · rintro ⟨lm, hlm, hpred⟩
    obtain ⟨rm, hrm, hne⟩ := (statConflictPred_iff _ _ _).mp hpred
    exact ⟨lm, rm, hlm, hrm, hne⟩
  · rintro ⟨lm, rm, hlm, hrm, hne⟩
    exact ⟨lm, hlm, (statConflictPred_iff _ _ _).mpr ⟨rm, hrm, hne⟩⟩

/-- C4.  For stores with unique keys, `calculateDiff` partitions the ids:
`added` holds exactly the ids present remotely and absent locally,
`modified` exactly the ids present on both sides with differing
fingerprints, `deleted` exactly the ids present locally and absent
remotely; the three lists are pairwise disjoint, and an id present on both
sides with equal fingerprints appears in none of them. -/
theorem calculateDiff_partition (s : EngineState) (hl : WFStore s.localMessages)
    (hr : WFStore s.remoteMessages) (id : Int) :
    (id ∈ (calculateDiff s).added ↔
      (∃ rm, Store.find? s.remoteMessages id = some rm) ∧
        Store.find? s.localMessages id = none) ∧
    (id ∈ (calculateDiff s).modified ↔
      ∃ lm rm, Store.find? s.localMessages id = some lm ∧
        Store.find? s.remoteMessages id = some rm ∧ lm.hash ≠ rm.hash) ∧
    (id ∈ (calculateDiff s).deleted ↔
      (∃ lm, Store.find? s.localMessages id = some lm) ∧
        Store.find? s.remoteMessages id = none) ∧
    ¬ (id ∈ (calculateDiff s).added ∧ id ∈ (calculateDiff s).modified) ∧
    ¬ (id ∈ (calculateDiff s).added ∧ id ∈ (calculateDiff s).deleted) ∧
    ¬ (id ∈ (calculateDiff s).modified ∧ id ∈ (calculateDiff s).deleted) ∧
    (∀ lm rm, Store.find? s.localMessages id = some lm →
      Store.find? s.remoteMessages id = some rm → lm.hash = rm.hash →
      id ∉ (calculateDiff s).added ∧ id ∉ (calculateDiff s).modified ∧
        id ∉ (calculateDiff s).deleted) := by
  have hA := mem_diff_added_iff s hr id
  have hM := mem_diff_modified_iff s hr id
  have hD := mem_diff_deleted_iff s hl id
  refine ⟨hA, hM, hD, ?_, ?_, ?_, ?_⟩
  · rintro ⟨ha, hm⟩
    obtain ⟨_, hnone⟩ := hA.mp ha
    obtain ⟨lm, _, hlm, _⟩ := hM.mp hm
    rw [hnone] at hlm
    exact Option.noConfusion hlm
  · rintro ⟨ha, hd⟩
    obtain ⟨_, hnone⟩ := hA.mp ha
    obtain ⟨⟨lm, hlm⟩, _⟩ := hD.mp hd
    rw [hnone] at hlm
    exact Option.noConfusion hlm
  · rintro ⟨hm, hd⟩
    obtain ⟨_, rm, _, hrm, _⟩ := hM.mp hm
    obtain ⟨_, hnone⟩ := hD.mp hd
    rw [hnone] at hrm
    exact Option.noConfusion hrm
  · intro lm rm hlm hrm heq
    refine ⟨?_, ?_, ?_⟩
    · intro ha
      obtain ⟨_, hnone⟩ := hA.mp ha
      rw [hnone] at hlm
      exact Option.noConfusion hlm
    · intro hm
      obtain ⟨lm2, rm2, hlm2, hrm2, hne⟩ := hM.mp hm
      rw [hlm] at hlm2
      rw [hrm] at hrm2
      obtain rfl : lm2 = lm := Option.some.inj hlm2.symm
      obtain rfl : rm2 = rm := Option.some.inj hrm2.symm
      exact hne heq
    · intro hd
      obtain ⟨_, hnone⟩ := hD.mp hd
      rw [hnone] at hrm
      exact Option.noConfusion hrm

/-- Witness for C4 at a concrete pair of stores: local has ids 1 and 2,
remote has ids 1 (different content) and 3; id 1 lands in `modified` and in
no other set. -/
theorem calculateDiff_partition_witness :
    WFStore (EngineState.mk
        [(1, Message.mk 1 "hello" 100 (hashMessage "hello")),
         (2, Message.mk 2 "bye" 50 (hashMessage "bye"))]
        [(1, Message.mk 1 "hallo" 200 (hashMessage "hallo")),
         (3, Message.mk 3 "new" 300 (hashMessage "new"))]).localMessages ∧
    (1 : Int) ∈ (calculateDiff (EngineState.mk
        [(1, Message.mk 1 "hello" 100 (hashMessage "hello")),
         (2, Message.mk 2 "bye" 50 (hashMessage "bye"))]
        [(1, Message.mk 1 "hallo" 200 (hashMessage "hallo")),
         (3, Message.mk 3 "new" 300 (hashMessage "new"))])).modified ∧
    ¬ ((1 : Int) ∈ (calculateDiff (EngineState.mk
        [(1, Message.mk 1 "hello" 100 (hashMessage "hello")),
         (2, Message.mk 2 "bye" 50 (hashMessage "bye"))]
        [(1, Message.mk 1 "hallo" 200 (hashMessage "hallo")),
         (3, Message.mk 3 "new" 300 (hashMessage "new"))])).added ∧
      (1 : Int) ∈ (calculateDiff (EngineState.mk
        [(1, Message.mk 1 "hello" 100 (hashMessage "hello")),
         (2, Message.mk 2 "bye" 50 (hashMessage "bye"))]
        [(1, Message.mk 1 "hallo" 200 (hashMessage "hallo")),
         (3, Message.mk 3 "new" 300 (hashMessage "new"))])).modified) := by
  have T := calculateDiff_partition (EngineState.mk
      [(1, Message.mk 1 "hello" 100 (hashMessage "hello")),
       (2, Message.mk 2 "bye" 50 (hashMessage "bye"))]
      [(1, Message.mk 1 "hallo" 200 (hashMessage "hallo")),
       (3, Message.mk 3 "new" 300 (hashMessage "new"))])
    (by decide) (by decide) 1
  refine ⟨by decide, ?_, T.2.2.2.1⟩
  exact (T.2.1).mpr ⟨Message.mk 1 "hello" 100 (hashMessage "hello"),
    Message.mk 1 "hallo" 200 (hashMessage "hallo"), by decide, by decide, by decide⟩

/-- C5.  Cross-consistency of the two independently implemented conflict
counts: for stores with unique keys, the `conflicts` field of `getStats`
equals the length of the `modified` list of `calculateDiff` on the same
store contents. -/
theorem getStats_conflicts_eq_diff_modified (s : EngineState)
    (hl : WFStore s.localMessages) (hr : WFStore s.remoteMessages) :
    (getStats s).conflicts = (calculateDiff s).modified.length := by
  have hAnodup : ((s.remoteMessages.filter (diffModPred s.localMessages)).map Prod.fst).Nodup :=
    ((List.filter_sublist _).map Prod.fst).nodup hr
  have hBnodup : ((s.localMessages.filter
      (statConflictPred s.remoteMessages)).map Prod.fst).Nodup :=
    ((List.filter_sublist _).map Prod.fst).nodup hl
  have hsubAB : ((s.remoteMessages.filter (diffModPred s.localMessages)).map Prod.fst) ⊆
      ((s.localMessages.filter (statConflictPred s.remoteMessages)).map Prod.fst) := by
    intro id hid
    exact (mem_statConflict_iff s hl id).mpr ((mem_diff_modified_iff s hr id).mp hid)
  have hsubBA : ((s.localMessages.filter (statConflictPred s.remoteMessages)).map Prod.fst) ⊆
      ((s.remoteMessages.filter (diffModPred s.localMessages)).map Prod.fst) := by
    intro id hid
    exact (mem_diff_modified_iff s hr id).mpr ((mem_statConflict_iff s hl id).mp hid)
  have h1 := (hAnodup.subperm hsubAB).length_le
  have h2 := (hBnodup.subperm hsubBA).length_le
  have hBlen : (getStats s).conflicts
      = ((s.localMessages.filter (statConflictPred s.remoteMessages)).map Prod.fst).length := by
    show (s.localMessages.filter (statConflictPred s.remoteMessages)).length = _
    rw [List.length_map]
  have hAlen : (calculateDiff s).modified.length
      = ((s.remoteMessages.filter (diffModPred s.localMessages)).map Prod.fst).length := rfl
  rw [hBlen, hAlen]
  omega

/-- Witness for C5 at a concrete pair of stores: one common id with
differing content, one extra id on each side; both counts are 1. -/
theorem getStats_conflicts_eq_diff_modified_witness :
    WFStore (EngineState.mk
        [(1, Message.mk 1 "hello" 100 (hashMessage "hello")),
         (2, Message.mk 2 "bye" 50 (hashMessage "bye"))]
        [(1, Message.mk 1 "hallo" 200 (hashMessage "hallo")),
         (3, Message.mk 3 "new" 300 (hashMessage "new"))]).localMessages ∧
    (getStats (EngineState.mk
        [(1, Message.mk 1 "hello" 100 (hashMessage "hello")),
         (2, Message.mk 2 "bye" 50 (hashMessage "bye"))]
        [(1, Message.mk 1 "hallo" 200 (hashMessage "hallo")),
         (3, Message.mk 3 "new" 300 (hashMessage "new"))])).conflicts
      = (calculateDiff (EngineState.mk
        [(1, Message.mk 1 "hello" 100 (hashMessage "hello")),
         (2, Message.mk 2 "bye" 50 (hashMessage "bye"))]
        [(1, Message.mk 1 "hallo" 200 (hashMessage "hallo")),
         (3, Message.mk 3 "new" 300 (hashMessage "new"))])).modified.length :=
  ⟨by decide, getStats_conflicts_eq_diff_modified _ (by decide) (by decide)⟩
